import Mathlib

/-!
Verification of the HiGHS basis-factorization engine header (util/HFactor.h)
against its natural-language specification.

The shallow embedding below models C++ HighsInt as Int and double as ℚ.
Arrays are modelled as total functions from Int, since HFactor manipulates
raw vector slots by integer arithmetic.  The inline member functions of
HFactor (colInsert, colFixMax, colDelete, rowInsert, rowDelete, clinkAdd,
clinkDel, rlinkAdd, rlinkDel) are translated directly from the source.
Members whose implementations are only declared in the header (build,
update, setPivotThreshold, setMinAbsPivot, buildKernel) are modelled from
the specification where needed, and are marked as such.
-/

namespace HFactor

/-- The active-kernel portion of the HFactor state: column-wise kernel arrays
(mc_*), the row-wise mirror (mr_*), and the pivot threshold used by
colFixMax.  Arrays are total functions over Int, matching the raw slot
arithmetic of the source. -/
structure Kernel where
  pivot_threshold : ℚ
  mc_start : Int → Int
  mc_count_a : Int → Int
  mc_count_n : Int → Int
  mc_space : Int → Int
  mc_index : Int → Int
  mc_value : Int → ℚ
  mc_min_pivot : Int → ℚ
  mr_start : Int → Int
  mr_count : Int → Int
  mr_index : Int → Int

/-- Modelled from the spec: the drop tolerance constant kHighsTiny is declared
in lp_data/HConst.h, which is not among the source files; only its role as the
smallest magnitude allowed into the kernel matters here, so it is fixed to
1e-14. -/
def kHighsTiny : ℚ := 1 / 100000000000000

/-- HFactor::colInsert.  The source asserts (fatally) when the inserted value
is below kHighsTiny; that branch is modelled as none.  Otherwise the entry is
appended at slot mc_start[iCol] + mc_count_a[iCol] and the live count is
post-incremented. -/
def colInsert (s : Kernel) (iCol iRow : Int) (value : ℚ) : Option Kernel :=
  if |value| < kHighsTiny then
    none
  else
    let iput := s.mc_start iCol + s.mc_count_a iCol
    some { s with
      mc_count_a := Function.update s.mc_count_a iCol (s.mc_count_a iCol + 1)
      mc_index := Function.update s.mc_index iput iRow
      mc_value := Function.update s.mc_value iput value }

/-- The loop of HFactor::colFixMax: running maximum of |mc_value| over slots
start .. start + n - 1, starting from 0 and scanning upwards. -/
def colMaxAbsAux (s : Kernel) (start : Int) : Nat → ℚ
  | 0 => 0
  | n + 1 => max (colMaxAbsAux s start n) |s.mc_value (start + (n : Int))|

/-- HFactor::colFixMax: store max |live column entry| times pivot_threshold in
mc_min_pivot[iCol].  The C++ loop runs mc_count_a[iCol] times (zero times when
that count is nonpositive). -/
def colFixMax (s : Kernel) (iCol : Int) : Kernel :=
  let mp := colMaxAbsAux s (s.mc_start iCol) (s.mc_count_a iCol).toNat * s.pivot_threshold
  { s with mc_min_pivot := Function.update s.mc_min_pivot iCol mp }

/-- The while loop shared by HFactor::colDelete and HFactor::rowDelete: the
first slot at or after start whose stored index equals target.  The C++ loop
is unbounded; fuel makes termination explicit, and none means the loop did not
stop within fuel slots. -/
def scanFor (f : Int → Int) (target start : Int) : Nat → Option Int
  | 0 => none
  | n + 1 => if f start = target then some start else scanFor f target (start + 1) n

/-- HFactor::colDelete: decrement the live count, scan for iRow from the start
of the column, return the stored value, and move the previously last live
entry into the vacated slot. -/
def colDelete (fuel : Nat) (s : Kernel) (iCol iRow : Int) : Option (Kernel × ℚ) :=
  let newCount := s.mc_count_a iCol - 1
  let imov := s.mc_start iCol + newCount
  match scanFor s.mc_index iRow (s.mc_start iCol) fuel with
  | none => none
  | some idel =>
      some ({ s with
        mc_count_a := Function.update s.mc_count_a iCol newCount
        mc_index := Function.update s.mc_index idel (s.mc_index imov)
        mc_value := Function.update s.mc_value idel (s.mc_value imov) },
        s.mc_value idel)

/-- HFactor::rowInsert: append iCol at slot mr_start[iRow] + mr_count[iRow]
and post-increment the row count. -/
def rowInsert (s : Kernel) (iCol iRow : Int) : Kernel :=
  let iput := s.mr_start iRow + s.mr_count iRow
  { s with
    mr_count := Function.update s.mr_count iRow (s.mr_count iRow + 1)
    mr_index := Function.update s.mr_index iput iCol }

/-- HFactor::rowDelete: the row-wise analogue of colDelete (indices only; no
values are stored row-wise). -/
def rowDelete (fuel : Nat) (s : Kernel) (iCol iRow : Int) : Option Kernel :=
  let newCount := s.mr_count iRow - 1
  let imov := s.mr_start iRow + newCount
  match scanFor s.mr_index iCol (s.mr_start iRow) fuel with
  | none => none
  | some idel =>
      some { s with
        mr_count := Function.update s.mr_count iRow newCount
        mr_index := Function.update s.mr_index idel (s.mr_index imov) }

/-- M is the maximum absolute value over the live entries of column iCol,
taken as 0 when the column has no live entries. -/
def isColMaxAbs (s : Kernel) (iCol : Int) (M : ℚ) : Prop :=
  (∀ k : Nat, k < (s.mc_count_a iCol).toNat →
    |s.mc_value (s.mc_start iCol + (k : Int))| ≤ M) ∧
  ((s.mc_count_a iCol).toNat = 0 → M = 0) ∧
  ((s.mc_count_a iCol).toNat ≠ 0 →
    ∃ k : Nat, k < (s.mc_count_a iCol).toNat ∧
      M = |s.mc_value (s.mc_start iCol + (k : Int))|)

/-- Modelled from the spec: the pivot-acceptance test of buildKernel, whose
implementation is not among the source files.  A candidate value in column
iCol is acceptable when its magnitude reaches the column's freshly computed
mc_min_pivot (colFixMax is translated from the source). -/
def kernelPivotAccepted (s : Kernel) (iCol : Int) (v : ℚ) : Prop :=
  (colFixMax s iCol).mc_min_pivot iCol ≤ |v|

/-- One triple of count-bucket arrays: first is indexed by a count, next and
last by a column (or row) index.  HFactor keeps one such triple for columns
(col_link_first / col_link_next / col_link_last) and an identical one for rows
(row_link_first / row_link_next / row_link_last). -/
structure LinkState where
  first : Int → Int
  next : Int → Int
  last : Int → Int

/-- HFactor::clinkAdd: prepend index as the new head of the count bucket,
encoding the back-link of the new head as -2 - count; the previous head, when
one exists (mover >= 0), gets its back-link pointed at index. -/
def clinkAdd (s : LinkState) (index count : Int) : LinkState :=
  let mover := s.first count
  let s1 : LinkState :=
    { first := Function.update s.first count index
      next := Function.update s.next index mover
      last := Function.update s.last index (-2 - count) }
  if 0 ≤ mover then { s1 with last := Function.update s1.last mover index } else s1

/-- HFactor::clinkDel: unlink index, splicing its predecessor (the bucket head
array when the back-link is the negative sentinel) to its successor, and
fixing the successor's back-link when a successor exists. -/
def clinkDel (s : LinkState) (index : Int) : LinkState :=
  let xlast := s.last index
  let xnext := s.next index
  let s1 : LinkState :=
    if 0 ≤ xlast then { s with next := Function.update s.next xlast xnext }
    else { s with first := Function.update s.first (-xlast - 2) xnext }
  if 0 ≤ xnext then { s1 with last := Function.update s1.last xnext xlast } else s1

/-- HFactor::rlinkAdd: textually identical to clinkAdd, acting on the
row_link_* triple instead of the col_link_* triple. -/
def rlinkAdd : LinkState → Int → Int → LinkState := clinkAdd

/-- HFactor::rlinkDel: textually identical to clinkDel, acting on the
row_link_* triple instead of the col_link_* triple. -/
def rlinkDel : LinkState → Int → LinkState := clinkDel

/-- A matched pair of kernel mutations: colInsert immediately paired with
rowInsert, or colDelete immediately paired with rowDelete, as the kernel
elimination performs them. -/
inductive KernelOp where
  | ins (iCol iRow : Int) (v : ℚ)
  | del (iCol iRow : Int)

/-- Apply one matched pair of kernel mutations. -/
def applyOp (fuel : Nat) (s : Kernel) : KernelOp → Option Kernel
  | KernelOp.ins iCol iRow v => (colInsert s iCol iRow v).map fun s1 => rowInsert s1 iCol iRow
  | KernelOp.del iCol iRow =>
      match colDelete fuel s iCol iRow with
      | none => none
      | some (s1, _) => rowDelete fuel s1 iCol iRow

/-- Apply a sequence of matched pairs, failing if any pair fails. -/
def applyOps (fuel : Nat) : Kernel → List KernelOp → Option Kernel
  | s, [] => some s
  | s, op :: rest =>
      match applyOp fuel s op with
      | none => none
      | some s1 => applyOps fuel s1 rest

/-- Total of the column-view live counts over the n kernel columns. -/
def sumColCounts (s : Kernel) (n : Nat) : Int :=
  ∑ j ∈ Finset.range n, s.mc_count_a (j : Int)

/-- Total of the row-view live counts over the m kernel rows. -/
def sumRowCounts (s : Kernel) (m : Nat) : Int :=
  ∑ i ∈ Finset.range m, s.mr_count (i : Int)

/-- Net change in the number of live kernel entries over a sequence of matched
pairs: +1 per insert pair, -1 per delete pair. -/
def opDelta : List KernelOp → Int
  | [] => 0
  | KernelOp.ins _ _ _ :: rest => 1 + opDelta rest
  | KernelOp.del _ _ :: rest => -1 + opDelta rest

/-- Every operation touches a column among the n kernel columns and a row
among the m kernel rows. -/
def opsInRange (n m : Nat) (ops : List KernelOp) : Prop :=
  ∀ op ∈ ops,
    match op with
    | KernelOp.ins iCol iRow _ => 0 ≤ iCol ∧ iCol < (n : Int) ∧ 0 ≤ iRow ∧ iRow < (m : Int)
    | KernelOp.del iCol iRow => 0 ≤ iCol ∧ iCol < (n : Int) ∧ 0 ≤ iRow ∧ iRow < (m : Int)

/-- A concrete kernel used to instantiate the theorems: two kernel columns and
two kernel rows; column 0 holds entries (row 5 is fictitious but legal for the
column primitives; rows 0 and 1 are used for the paired view). -/
def K1 : Kernel where
  pivot_threshold := 1 / 10
  mc_start := fun _ => 0
  mc_count_a := fun j => if j = 0 then 2 else 0
  mc_count_n := fun _ => 0
  mc_space := fun _ => 4
  mc_index := fun k => if k = 0 then 5 else if k = 1 then 7 else -1
  mc_value := fun k => if k = 0 then 3 else if k = 1 then -4 else 0
  mc_min_pivot := fun _ => 0
  mr_start := fun _ => 0
  mr_count := fun _ => 0
  mr_index := fun _ => -1

/-- A concrete kernel whose column and row views agree: entry (row 1, col 0)
with value 2, seen by both mirrors. -/
def K2 : Kernel where
  pivot_threshold := 1 / 10
  mc_start := fun _ => 0
  mc_count_a := fun j => if j = 0 then 1 else 0
  mc_count_n := fun _ => 0
  mc_space := fun _ => 4
  mc_index := fun k => if k = 0 then 1 else -1
  mc_value := fun k => if k = 0 then 2 else 0
  mc_min_pivot := fun _ => 0
  mr_start := fun _ => 0
  mr_count := fun i => if i = 1 then 1 else 0
  mr_index := fun k => if k = 0 then 0 else -1

/-- A concrete count-bucket state: index 4 is the sole member of the bucket
for count 1; every other link is the empty sentinel -1. -/
def L1 : LinkState where
  first := fun c => if c = 1 then 4 else -1
  next := fun _ => -1
  last := fun i => if i = 4 then -3 else -1

/-- Modelled from the spec: one kernel pivot as chosen during buildKernel,
whose implementation is not among the source files.  The record keeps the
kernel state at the moment the pivot was chosen, the pivot position, and the
pivot value that buildKernel stores into u_pivot_value. -/
structure KernelPivot where
  state : Kernel
  iRow : Int
  iCol : Int
  value : ℚ

/-- Modelled from the spec: a successful kernel factorization chose every
pivot through the threshold acceptance test against its column's freshly
computed mc_min_pivot. -/
def buildKernelOk (ps : List KernelPivot) : Prop :=
  ∀ p ∈ ps, kernelPivotAccepted p.state p.iCol p.value

/-- The pivot value recorded for the k-th kernel pivot (u_pivot_value[k]). -/
def u_pivot_value (ps : List KernelPivot) (k : Nat) (hk : k < ps.length) : ℚ :=
  (ps.get ⟨k, hk⟩).value

/-- Modelled from the spec: the outcome of HFactor::build, whose
implementation is not among the source files.  Build finds pivot_values for
some of the num_row rows; buildHandleRankDeficiency lists the rows, basis
columns and variables left without a pivot and substitutes a unit slack pivot
for each of them. -/
structure BuildOutcome where
  num_row : Nat
  pivot_values : List ℚ
  row_with_no_pivot : List Int
  col_with_no_pivot : List Int
  var_with_no_pivot : List Int

/-- Degree of rank deficiency: rows left without a pivot. -/
def rank_deficiency (b : BuildOutcome) : Nat := b.num_row - b.pivot_values.length

/-- Modelled from the spec: the return value of HFactor::build is 0 on full
success and the rank deficiency otherwise. -/
def build (b : BuildOutcome) : Int := (rank_deficiency b : Int)

/-- Modelled from the spec: the pivots of the completed factorization: the
pivots actually found, followed by one unit pivot for each substituted slack
column. -/
def final_u_pivot_value (b : BuildOutcome) : List ℚ :=
  b.pivot_values ++ List.replicate (rank_deficiency b) 1

/-- Modelled from the spec: what every Build outcome satisfies: no more
pivots than rows, one entry in each pivot-failure list per deficient row, and
every accepted pivot at least the pivot tolerance in magnitude. -/
def buildWellFormed (b : BuildOutcome) (tol : ℚ) : Prop :=
  b.pivot_values.length ≤ b.num_row ∧
  b.row_with_no_pivot.length = rank_deficiency b ∧
  b.col_with_no_pivot.length = rank_deficiency b ∧
  b.var_with_no_pivot.length = rank_deficiency b ∧
  ∀ v ∈ b.pivot_values, tol ≤ |v|

/-- Modelled from the spec: the hint value meaning the update was incorporated. -/
def kHintKeep : Int := 0

/-- Modelled from the spec: the hint value asking the caller to reinvert. -/
def kHintReinvert : Int := 1

/-- Modelled from the spec: the factorization state touched by HFactor::update,
whose implementation is not among the source files: the L and U stores and the
product-form update buffers, plus the pivot tolerance. -/
structure UpdateEngine where
  pivot_tolerance : ℚ
  l_value : List ℚ
  u_value : List ℚ
  pf_pivot_index : List Int
  pf_pivot_value : List ℚ
  pf_start : List Int
  pf_index : List Int
  pf_value : List ℚ

/-- Modelled from the spec: HFactor::update.  When the pivot magnitude
|aq[iRow]| is below pivot_tolerance the hint is set to reinvert and the state
is left untouched; otherwise the eta data is appended to the update buffers. -/
def update (s : UpdateEngine) (aq : Int → ℚ) (aq_index : List Int) (iRow : Int) :
    UpdateEngine × Int :=
  if |aq iRow| < s.pivot_tolerance then (s, kHintReinvert)
  else
    ({ s with
        pf_pivot_index := s.pf_pivot_index ++ [iRow]
        pf_pivot_value := s.pf_pivot_value ++ [aq iRow]
        pf_start := s.pf_start ++ [(s.pf_index.length : Int)]
        pf_index := s.pf_index ++ aq_index
        pf_value := s.pf_value ++ aq_index.map aq }, kHintKeep)

/-- Modelled from the spec: the effect of each engine operation on
basic_index.  Build reorders basic_index in place (a permutation of its
entries); Ftran, Btran and Update leave it alone. -/
inductive EngineStep : List Int → List Int → Prop where
  | build (bi bi' : List Int) : bi'.Perm bi → EngineStep bi bi'
  | ftran (bi : List Int) : EngineStep bi bi
  | btran (bi : List Int) : EngineStep bi bi
  | update (bi : List Int) : EngineStep bi bi

/-- Modelled from the spec: l_pivot_lookup[row] is the pivot order of that
row, the inverse of l_pivot_index (row of the k-th pivot). -/
def l_pivot_lookup (l_pivot_index : List Int) (row : Int) : Nat :=
  l_pivot_index.indexOf row

/-- Modelled from the spec: the two tolerances owned by the engine and set by
setPivotThreshold / setMinAbsPivot. -/
structure FactorTolerances where
  pivot_threshold : ℚ
  pivot_tolerance : ℚ

/-- Modelled from the spec: HFactor::setPivotThreshold, whose implementation
is not among the source files: accept a proposed threshold exactly when it
lies in (0, 1/2], report acceptance, and keep the stored value on rejection. -/
def setPivotThreshold (s : FactorTolerances) (new_pivot_threshold : ℚ) :
    FactorTolerances × Bool :=
  if 0 < new_pivot_threshold ∧ new_pivot_threshold ≤ 1 / 2 then
    ({ s with pivot_threshold := new_pivot_threshold }, true)
  else (s, false)

/-- Modelled from the spec: HFactor::setMinAbsPivot, whose implementation is
not among the source files: accept a proposed minimum absolute pivot exactly
when it lies in (0, 1/2], report acceptance, and keep the stored value on
rejection. -/
def setMinAbsPivot (s : FactorTolerances) (new_pivot_tolerance : ℚ) :
    FactorTolerances × Bool :=
  if 0 < new_pivot_tolerance ∧ new_pivot_tolerance ≤ 1 / 2 then
    ({ s with pivot_tolerance := new_pivot_tolerance }, true)
  else (s, false)

/-- A concrete rank-deficient Build outcome: three rows, two pivots found,
one row/column/variable left unpivoted. -/
def B1 : BuildOutcome where
  num_row := 3
  pivot_values := [2, 5 / 2]
  row_with_no_pivot := [2]
  col_with_no_pivot := [1]
  var_with_no_pivot := [4]

/-- A concrete update-engine state with empty buffers and tolerance 1/100. -/
def U1 : UpdateEngine where
  pivot_tolerance := 1 / 100
  l_value := [1]
  u_value := [2]
  pf_pivot_index := []
  pf_pivot_value := []
  pf_start := []
  pf_index := []
  pf_value := []

/-- A concrete tolerance pair holding the spec's default values. -/
def T1 : FactorTolerances where
  pivot_threshold := 1 / 10
  pivot_tolerance := 1 / 100

lemma colMaxAbsAux_nonneg (s : Kernel) (start : Int) :
    ∀ n : Nat, 0 ≤ colMaxAbsAux s start n := by
  intro n
  induction n with
  | zero => exact le_refl 0
  | succ n ih => exact le_trans ih (le_max_left _ _)

lemma colMaxAbsAux_le (s : Kernel) (start : Int) :
    ∀ n k : Nat, k < n →
      |s.mc_value (start + (k : Int))| ≤ colMaxAbsAux s start n := by
  intro n
  induction n with
  | zero => intro k hk; exact absurd hk (Nat.not_lt_zero k)
  | succ n ih =>
      intro k hk
      rcases Nat.lt_succ_iff_lt_or_eq.mp hk with h | h
      · exact le_trans (ih k h) (le_max_left _ _)
      · subst h; exact le_max_right _ _

lemma colMaxAbsAux_attained (s : Kernel) (start : Int) :
    ∀ n : Nat, colMaxAbsAux s start n = 0 ∨
      ∃ k : Nat, k < n ∧ colMaxAbsAux s start n = |s.mc_value (start + (k : Int))| := by
  intro n
  induction n with
  | zero => exact Or.inl rfl
  | succ n ih =>
      rcases max_choice (colMaxAbsAux s start n) |s.mc_value (start + (n : Int))| with h | h
      · rcases ih with h0 | ⟨k, hk, hke⟩
        · exact Or.inl (by rw [colMaxAbsAux, h, h0])
        · exact Or.inr ⟨k, Nat.lt_succ_of_lt hk, by rw [colMaxAbsAux, h, hke]⟩
      · exact Or.inr ⟨n, Nat.lt_succ_self n, by rw [colMaxAbsAux, h]⟩

lemma colMaxAbsAux_isColMaxAbs (s : Kernel) (iCol : Int) :
    isColMaxAbs s iCol (colMaxAbsAux s (s.mc_start iCol) (s.mc_count_a iCol).toNat) := by
  refine ⟨fun k hk => colMaxAbsAux_le s _ _ k hk, fun h => by rw [h]; rfl, fun h => ?_⟩
  rcases colMaxAbsAux_attained s (s.mc_start iCol) (s.mc_count_a iCol).toNat with h0 | ⟨k, hk, hke⟩
  · refine ⟨0, Nat.pos_of_ne_zero h, ?_⟩
    have h1 := colMaxAbsAux_le s (s.mc_start iCol) (s.mc_count_a iCol).toNat 0
      (Nat.pos_of_ne_zero h)
    rw [h0] at h1
    have h2 : |s.mc_value (s.mc_start iCol + ((0 : Nat) : Int))| = 0 :=
      le_antisymm h1 (abs_nonneg _)
    rw [h0, h2]
  · exact ⟨k, hk, hke⟩

lemma colFixMax_min_pivot (s : Kernel) (iCol : Int) :
    (colFixMax s iCol).mc_min_pivot iCol =
      colMaxAbsAux s (s.mc_start iCol) (s.mc_count_a iCol).toNat * s.pivot_threshold := by
  simp [colFixMax, Function.update_same]

/-- Claim C4: colFixMax sets mc_min_pivot[iCol] to pivot_threshold times the
maximum absolute value over the column's live slots, 0 when the column has no
live entries, and a candidate value in the column is acceptable precisely when
its magnitude reaches that stored bound. -/
theorem colFixMax_spec (s : Kernel) (iCol : Int) :
    ∃ M : ℚ, isColMaxAbs s iCol M ∧
      (colFixMax s iCol).mc_min_pivot iCol = M * s.pivot_threshold ∧
      ((s.mc_count_a iCol).toNat = 0 → (colFixMax s iCol).mc_min_pivot iCol = 0) ∧
      (∀ v : ℚ, kernelPivotAccepted s iCol v ↔ M * s.pivot_threshold ≤ |v|) := by
  refine ⟨colMaxAbsAux s (s.mc_start iCol) (s.mc_count_a iCol).toNat,
    colMaxAbsAux_isColMaxAbs s iCol, colFixMax_min_pivot s iCol, fun h => ?_, fun v => ?_⟩
  · rw [colFixMax_min_pivot s iCol, h]
    simp [colMaxAbsAux]
  · rw [kernelPivotAccepted, colFixMax_min_pivot s iCol]

/-- Claim C9: inserting a value of magnitude below kHighsTiny hits the fatal
assertion branch of colInsert; any other insertion appends the entry at slot
mc_start[iCol] + mc_count_a[iCol], increments the live count by one, and
leaves every other slot and count unchanged. -/
theorem colInsert_spec (s : Kernel) (iCol iRow : Int) (v : ℚ) :
    (|v| < kHighsTiny → colInsert s iCol iRow v = none) ∧
    (kHighsTiny ≤ |v| → ∃ s', colInsert s iCol iRow v = some s' ∧
      s'.mc_count_a iCol = s.mc_count_a iCol + 1 ∧
      s'.mc_index (s.mc_start iCol + s.mc_count_a iCol) = iRow ∧
      s'.mc_value (s.mc_start iCol + s.mc_count_a iCol) = v ∧
      (∀ k : Int, k ≠ s.mc_start iCol + s.mc_count_a iCol →
        s'.mc_index k = s.mc_index k ∧ s'.mc_value k = s.mc_value k) ∧
      (∀ j : Int, j ≠ iCol → s'.mc_count_a j = s.mc_count_a j)) := by
  constructor
  · intro h
    simp [colInsert, h]
  · intro h
    refine ⟨{ s with
        mc_count_a := Function.update s.mc_count_a iCol (s.mc_count_a iCol + 1)
        mc_index := Function.update s.mc_index (s.mc_start iCol + s.mc_count_a iCol) iRow
        mc_value := Function.update s.mc_value (s.mc_start iCol + s.mc_count_a iCol) v },
      ?_, ?_, ?_, ?_, ?_, ?_⟩
    · simp [colInsert, not_lt.mpr h]
    · simp [Function.update_same]
    · simp [Function.update_same]
    · simp [Function.update_same]
    · intro k hk
      exact ⟨Function.update_noteq hk _ _, Function.update_noteq hk _ _⟩
    · intro j hj
      exact Function.update_noteq hj _ _

lemma scanFor_none (f : Int → Int) (target : Int) :
    ∀ (fuel : Nat) (start : Int),
      (∀ k : Nat, k < fuel → f (start + (k : Int)) ≠ target) →
      scanFor f target start fuel = none := by
  intro fuel
  induction fuel with
  | zero => intro start _; rfl
  | succ n ih =>
      intro start h
      have h0 : f start ≠ target := by simpa using h 0 (Nat.succ_pos n)
      rw [scanFor, if_neg h0]
      refine ih (start + 1) fun k hk => ?_
      have hx := h (k + 1) (Nat.succ_lt_succ hk)
      have e : start + ((k + 1 : Nat) : Int) = start + 1 + (k : Int) := by push_cast; ring
      rw [e] at hx
      exact hx

lemma scanFor_found (f : Int → Int) (target : Int) :
    ∀ (fuel : Nat) (start : Int) (p : Nat), p < fuel →
      f (start + (p : Int)) = target →
      (∀ q : Nat, q < p → f (start + (q : Int)) ≠ target) →
      scanFor f target start fuel = some (start + (p : Int)) := by
  intro fuel
  induction fuel with
  | zero => intro start p hp; exact absurd hp (Nat.not_lt_zero p)
  | succ n ih =>
      intro start p hp hfound hmin
      cases p with
      | zero =>
          have hf : f start = target := by simpa using hfound
          rw [scanFor, if_pos hf]
          simp
      | succ p =>
          have h0 : f start ≠ target := by simpa using hmin 0 (Nat.succ_pos p)
          rw [scanFor, if_neg h0]
          have hfound1 : f (start + 1 + (p : Int)) = target := by
            have e : start + ((p + 1 : Nat) : Int) = start + 1 + (p : Int) := by
              push_cast; ring
            rw [e] at hfound
            exact hfound
          have hmin1 : ∀ q : Nat, q < p → f (start + 1 + (q : Int)) ≠ target := by
            intro q hq
            have hx := hmin (q + 1) (Nat.succ_lt_succ hq)
            have e : start + ((q + 1 : Nat) : Int) = start + 1 + (q : Int) := by
              push_cast; ring
            rw [e] at hx
            exact hx
          rw [ih (start + 1) p (Nat.lt_of_succ_lt_succ hp) hfound1 hmin1]
          congr 1
          push_cast
          ring

/-- Claim C10: when iRow occurs among the live slots of column iCol (first
occurrence at offset p), colDelete's scan stops inside the live span, the
stored value is returned, the live count drops by one and the vacated slot is
overwritten by the previously last live entry; when the target index is absent
from every slot the scan may reach, the loop never stops, so the precondition
is what keeps the scan inside the live span.  rowDelete behaves the same way
on the row mirror. -/
theorem colDelete_spec (s : Kernel) (iCol iRow : Int) (p : Nat)
    (hp : p < (s.mc_count_a iCol).toNat)
    (hfound : s.mc_index (s.mc_start iCol + (p : Int)) = iRow)
    (hmin : ∀ q : Nat, q < p → s.mc_index (s.mc_start iCol + (q : Int)) ≠ iRow) :
    (∃ s', colDelete (s.mc_count_a iCol).toNat s iCol iRow =
        some (s', s.mc_value (s.mc_start iCol + (p : Int))) ∧
      s'.mc_count_a iCol = s.mc_count_a iCol - 1 ∧
      s'.mc_index (s.mc_start iCol + (p : Int)) =
        s.mc_index (s.mc_start iCol + (s.mc_count_a iCol - 1)) ∧
      s'.mc_value (s.mc_start iCol + (p : Int)) =
        s.mc_value (s.mc_start iCol + (s.mc_count_a iCol - 1)) ∧
      (∀ j : Int, j ≠ iCol → s'.mc_count_a j = s.mc_count_a j) ∧
      s'.mr_count = s.mr_count ∧ s'.mr_index = s.mr_index) ∧
    (∀ (t : Kernel) (jCol jRow : Int) (fuel : Nat),
      (∀ k : Nat, k < fuel → t.mc_index (t.mc_start jCol + (k : Int)) ≠ jRow) →
      colDelete fuel t jCol jRow = none) ∧
    (∀ (t : Kernel) (jCol jRow : Int) (q : Nat),
      q < (t.mr_count jRow).toNat →
      t.mr_index (t.mr_start jRow + (q : Int)) = jCol →
      (∀ r : Nat, r < q → t.mr_index (t.mr_start jRow + (r : Int)) ≠ jCol) →
      ∃ t', rowDelete (t.mr_count jRow).toNat t jCol jRow = some t' ∧
        t'.mr_count jRow = t.mr_count jRow - 1 ∧
        t'.mr_index (t.mr_start jRow + (q : Int)) =
          t.mr_index (t.mr_start jRow + (t.mr_count jRow - 1)) ∧
        (∀ i : Int, i ≠ jRow → t'.mr_count i = t.mr_count i) ∧
        t'.mc_count_a = t.mc_count_a ∧ t'.mc_index = t.mc_index ∧
        t'.mc_value = t.mc_value) ∧
    (∀ (t : Kernel) (jCol jRow : Int) (fuel : Nat),
      (∀ k : Nat, k < fuel → t.mr_index (t.mr_start jRow + (k : Int)) ≠ jCol) →
      rowDelete fuel t jCol jRow = none) := by
  refine ⟨?_, ?_, ?_, ?_⟩
  · have hscan := scanFor_found s.mc_index iRow (s.mc_count_a iCol).toNat
      (s.mc_start iCol) p hp hfound hmin
    refine ⟨{ s with
        mc_count_a := Function.update s.mc_count_a iCol (s.mc_count_a iCol - 1)
        mc_index := Function.update s.mc_index (s.mc_start iCol + (p : Int))
          (s.mc_index (s.mc_start iCol + (s.mc_count_a iCol - 1)))
        mc_value := Function.update s.mc_value (s.mc_start iCol + (p : Int))
          (s.mc_value (s.mc_start iCol + (s.mc_count_a iCol - 1))) },
      ?_, ?_, ?_, ?_, ?_, rfl, rfl⟩
    · simp only [colDelete, hscan]
    · exact Function.update_same _ _ _
    · exact Function.update_same _ _ _
    · exact Function.update_same _ _ _
    · intro j hj
      exact Function.update_noteq hj _ _
  · intro t jCol jRow fuel habsent
    rw [colDelete, scanFor_none t.mc_index jRow fuel (t.mc_start jCol) habsent]
  · intro t jCol jRow q hq hqfound hqmin
    have hscan := scanFor_found t.mr_index jCol (t.mr_count jRow).toNat
      (t.mr_start jRow) q hq hqfound hqmin
    refine ⟨{ t with
        mr_count := Function.update t.mr_count jRow (t.mr_count jRow - 1)
        mr_index := Function.update t.mr_index (t.mr_start jRow + (q : Int))
          (t.mr_index (t.mr_start jRow + (t.mr_count jRow - 1))) },
      ?_, ?_, ?_, ?_, rfl, rfl, rfl⟩
    · simp only [rowDelete, hscan]
    · exact Function.update_same _ _ _
    · exact Function.update_same _ _ _
    · intro i hi
      exact Function.update_noteq hi _ _
  · intro t jCol jRow fuel habsent
    rw [rowDelete, scanFor_none t.mr_index jCol fuel (t.mr_start jRow) habsent]

lemma clinkAdd_first (s : LinkState) (i c : Int) :
    (clinkAdd s i c).first = Function.update s.first c i := by
  by_cases h : 0 ≤ s.first c <;> simp [clinkAdd, h]

lemma clinkAdd_next (s : LinkState) (i c : Int) :
    (clinkAdd s i c).next = Function.update s.next i (s.first c) := by
  by_cases h : 0 ≤ s.first c <;> simp [clinkAdd, h]

lemma clinkAdd_last (s : LinkState) (i c : Int) :
    (clinkAdd s i c).last = if 0 ≤ s.first c then
      Function.update (Function.update s.last i (-2 - c)) (s.first c) i
    else Function.update s.last i (-2 - c) := by
  by_cases h : 0 ≤ s.first c <;> simp [clinkAdd, h]

lemma clinkAdd_last_self (s : LinkState) (i c : Int) (h1 : s.first c ≠ i) :
    (clinkAdd s i c).last i = -2 - c := by
  rw [clinkAdd_last]
  by_cases h : 0 ≤ s.first c
  · rw [if_pos h, Function.update_noteq (Ne.symm h1), Function.update_same]
  · rw [if_neg h, Function.update_same]

lemma clinkDel_first (t : LinkState) (j : Int) :
    (clinkDel t j).first = if 0 ≤ t.last j then t.first
      else Function.update t.first (-t.last j - 2) (t.next j) := by
  by_cases h : 0 ≤ t.last j <;> by_cases hn : 0 ≤ t.next j <;> simp [clinkDel, h, hn]

lemma clinkDel_next (t : LinkState) (j : Int) :
    (clinkDel t j).next = if 0 ≤ t.last j then
      Function.update t.next (t.last j) (t.next j) else t.next := by
  by_cases h : 0 ≤ t.last j <;> by_cases hn : 0 ≤ t.next j <;> simp [clinkDel, h, hn]

lemma clinkDel_last (t : LinkState) (j : Int) :
    (clinkDel t j).last = if 0 ≤ t.next j then
      Function.update t.last (t.next j) (t.last j) else t.last := by
  by_cases h : 0 ≤ t.last j <;> by_cases hn : 0 ≤ t.next j <;> simp [clinkDel, h, hn]

/-- Claim C6: clinkAdd prepends index as the new head of the count-c bucket,
encoding its back-link as -2 - c; when the index was not linked and the
previous head (if any) carries the well-formed sentinel, clinkDel immediately
after clinkAdd restores col_link_first and the next/last links of every other
index; and clinkDel splices any linked index out of its chain in one step,
whether it is a bucket head (negative sentinel) or an interior element.
rlinkAdd and rlinkDel, textually identical on the row arrays, satisfy the
same properties. -/
theorem clink_add_del_spec (s : LinkState) (i c : Int) (hc : 0 ≤ c)
    (h1 : s.first c ≠ i)
    (h2 : 0 ≤ s.first c → s.last (s.first c) = -2 - c) :
    (clinkAdd s i c).last i = -2 - c ∧
    (clinkAdd s i c).first c = i ∧
    (clinkDel (clinkAdd s i c) i).first = s.first ∧
    (∀ j : Int, j ≠ i → (clinkDel (clinkAdd s i c) i).next j = s.next j) ∧
    (∀ j : Int, j ≠ i → (clinkDel (clinkAdd s i c) i).last j = s.last j) ∧
    (∀ (t : LinkState) (j : Int), 0 ≤ t.last j →
      (clinkDel t j).next (t.last j) = t.next j) ∧
    (∀ (t : LinkState) (j b : Int), 0 ≤ b → t.last j = -2 - b →
      (clinkDel t j).first b = t.next j) ∧
    (∀ (t : LinkState) (j : Int), 0 ≤ t.next j →
      (clinkDel t j).last (t.next j) = t.last j) ∧
    (rlinkAdd s i c).last i = -2 - c ∧
    (rlinkAdd s i c).first c = i ∧
    (rlinkDel (rlinkAdd s i c) i).first = s.first ∧
    (∀ j : Int, j ≠ i → (rlinkDel (rlinkAdd s i c) i).next j = s.next j) ∧
    (∀ j : Int, j ≠ i → (rlinkDel (rlinkAdd s i c) i).last j = s.last j) := by
  have hlast_i : (clinkAdd s i c).last i = -2 - c := clinkAdd_last_self s i c h1
  have hnext_i : (clinkAdd s i c).next i = s.first c := by
    rw [clinkAdd_next]
    exact Function.update_same _ _ _
  have hneg : ¬ 0 ≤ (clinkAdd s i c).last i := by
    rw [hlast_i]
    omega
  have hfirst : (clinkDel (clinkAdd s i c) i).first = s.first := by
    rw [clinkDel_first, if_neg hneg, hlast_i, hnext_i, clinkAdd_first]
    have e : -(-2 - c) - 2 = c := by ring
    rw [e, Function.update_idem, Function.update_eq_self]
  have hnext : ∀ j : Int, j ≠ i → (clinkDel (clinkAdd s i c) i).next j = s.next j := by
    intro j hj
    rw [clinkDel_next, if_neg hneg, clinkAdd_next, Function.update_noteq hj]
  have hlast : ∀ j : Int, j ≠ i → (clinkDel (clinkAdd s i c) i).last j = s.last j := by
    intro j hj
    rw [clinkDel_last, hnext_i]
    by_cases hm : 0 ≤ s.first c
    · rw [if_pos hm, hlast_i, clinkAdd_last, if_pos hm]
      by_cases hjm : j = s.first c
      · subst hjm
        rw [Function.update_same, h2 hm]
      · rw [Function.update_noteq hjm, Function.update_noteq hjm,
          Function.update_noteq hj]
    · rw [if_neg hm, clinkAdd_last, if_neg hm, Function.update_noteq hj]
  have hunlink_next : ∀ (t : LinkState) (j : Int), 0 ≤ t.last j →
      (clinkDel t j).next (t.last j) = t.next j := by
    intro t j hd
    rw [clinkDel_next, if_pos hd, Function.update_same]
  have hunlink_first : ∀ (t : LinkState) (j b : Int), 0 ≤ b → t.last j = -2 - b →
      (clinkDel t j).first b = t.next j := by
    intro t j b hb hd
    have hd' : ¬ 0 ≤ t.last j := by omega
    rw [clinkDel_first, if_neg hd', hd]
    have e : -(-2 - b) - 2 = b := by ring
    rw [e, Function.update_same]
  have hunlink_last : ∀ (t : LinkState) (j : Int), 0 ≤ t.next j →
      (clinkDel t j).last (t.next j) = t.last j := by
    intro t j hn
    rw [clinkDel_last, if_pos hn, Function.update_same]
  have hfc : (clinkAdd s i c).first c = i := by
    rw [clinkAdd_first]
    exact Function.update_same _ _ _
  exact ⟨hlast_i, hfc, hfirst, hnext, hlast, hunlink_next, hunlink_first, hunlink_last,
    hlast_i, hfc, hfirst, hnext, hlast⟩

lemma sum_update_int (f : Int → Int) (n : Nat) (a : Int) (v : Int)
    (h0 : 0 ≤ a) (h1 : a < (n : Int)) :
    (∑ j ∈ Finset.range n, Function.update f a v (j : Int)) =
    (∑ j ∈ Finset.range n, f (j : Int)) + (v - f a) := by
  obtain ⟨b, rfl⟩ := Int.eq_ofNat_of_zero_le h0
  have hb : b < n := by exact_mod_cast h1
  have hmem : b ∈ Finset.range n := Finset.mem_range.mpr hb
  have hfun : (fun j : Nat => Function.update f (b : Int) v (j : Int)) =
      Function.update (fun j : Nat => f (j : Int)) b v := by
    funext j
    by_cases hj : j = b
    · subst hj
      rw [Function.update_same, Function.update_same]
    · have hj1 : (j : Int) ≠ (b : Int) := by exact_mod_cast hj
      rw [Function.update_noteq hj1, Function.update_noteq hj]
  calc (∑ j ∈ Finset.range n, Function.update f (b : Int) v (j : Int))
      = ∑ j ∈ Finset.range n, Function.update (fun j : Nat => f (j : Int)) b v j := by
        rw [hfun]
    _ = v + ∑ j ∈ (Finset.range n) \ {b}, f (j : Int) := Finset.sum_update_of_mem hmem _ _
    _ = v + ∑ j ∈ (Finset.range n).erase b, f (j : Int) := by
        rw [Finset.sdiff_singleton_eq_erase]
    _ = (∑ j ∈ Finset.range n, f (j : Int)) + (v - f (b : Int)) := by
        rw [← Finset.sum_erase_add (Finset.range n) _ hmem]
        ring

lemma colInsert_counts (s s' : Kernel) (iCol iRow : Int) (v : ℚ)
    (h : colInsert s iCol iRow v = some s') :
    s'.mc_count_a = Function.update s.mc_count_a iCol (s.mc_count_a iCol + 1) ∧
    s'.mr_count = s.mr_count := by
  by_cases hv : |v| < kHighsTiny
  · simp [colInsert, hv] at h
  · rw [colInsert, if_neg hv] at h
    injection h with h
    subst h
    exact ⟨rfl, rfl⟩

lemma colDelete_counts (fuel : Nat) (s s' : Kernel) (iCol iRow : Int) (v : ℚ)
    (h : colDelete fuel s iCol iRow = some (s', v)) :
    s'.mc_count_a = Function.update s.mc_count_a iCol (s.mc_count_a iCol - 1) ∧
    s'.mr_count = s.mr_count := by
  cases hscan : scanFor s.mc_index iRow (s.mc_start iCol) fuel with
  | none => simp [colDelete, hscan] at h
  | some idel =>
      simp only [colDelete, hscan, Option.some.injEq, Prod.mk.injEq] at h
      obtain ⟨h1, -⟩ := h
      subst h1
      exact ⟨rfl, rfl⟩

lemma rowDelete_counts (fuel : Nat) (s s' : Kernel) (iCol iRow : Int)
    (h : rowDelete fuel s iCol iRow = some s') :
    s'.mr_count = Function.update s.mr_count iRow (s.mr_count iRow - 1) ∧
    s'.mc_count_a = s.mc_count_a := by
  cases hscan : scanFor s.mr_index iCol (s.mr_start iRow) fuel with
  | none => simp [rowDelete, hscan] at h
  | some idel =>
      simp only [rowDelete, hscan, Option.some.injEq] at h
      subst h
      exact ⟨rfl, rfl⟩

lemma applyOp_ins_sums (n m fuel : Nat) (s s' : Kernel) (iCol iRow : Int) (v : ℚ)
    (hc0 : 0 ≤ iCol) (hc1 : iCol < (n : Int)) (hr0 : 0 ≤ iRow) (hr1 : iRow < (m : Int))
    (h : applyOp fuel s (KernelOp.ins iCol iRow v) = some s') :
    sumColCounts s' n = sumColCounts s n + 1 ∧
    sumRowCounts s' m = sumRowCounts s m + 1 := by
  simp only [applyOp] at h
  cases hci : colInsert s iCol iRow v with
  | none => rw [hci] at h; simp at h
  | some s1 =>
      rw [hci] at h
      simp only [Option.map_some', Option.some.injEq] at h
      subst h
      obtain ⟨e1, e2⟩ := colInsert_counts s s1 iCol iRow v hci
      constructor
      · have e3 : (rowInsert s1 iCol iRow).mc_count_a = s1.mc_count_a := rfl
        rw [sumColCounts, sumColCounts, e3, e1, sum_update_int _ _ _ _ hc0 hc1]
        ring
      · have e4 : (rowInsert s1 iCol iRow).mr_count =
            Function.update s1.mr_count iRow (s1.mr_count iRow + 1) := rfl
        rw [sumRowCounts, sumRowCounts, e4, e2, sum_update_int _ _ _ _ hr0 hr1]
        ring

lemma applyOp_del_sums (n m fuel : Nat) (s s' : Kernel) (iCol iRow : Int)
    (hc0 : 0 ≤ iCol) (hc1 : iCol < (n : Int)) (hr0 : 0 ≤ iRow) (hr1 : iRow < (m : Int))
    (h : applyOp fuel s (KernelOp.del iCol iRow) = some s') :
    sumColCounts s' n = sumColCounts s n - 1 ∧
    sumRowCounts s' m = sumRowCounts s m - 1 := by
  simp only [applyOp] at h
  cases hcd : colDelete fuel s iCol iRow with
  | none => rw [hcd] at h; simp at h
  | some pr =>
      obtain ⟨s1, v⟩ := pr
      rw [hcd] at h
      obtain ⟨e1, e2⟩ := colDelete_counts fuel s s1 iCol iRow v hcd
      obtain ⟨e3, e4⟩ := rowDelete_counts fuel s1 s' iCol iRow h
      constructor
      · rw [sumColCounts, sumColCounts, e4, e1, sum_update_int _ _ _ _ hc0 hc1]
        ring
      · rw [sumRowCounts, sumRowCounts, e3, e2, sum_update_int _ _ _ _ hr0 hr1]
        ring

lemma applyOps_sums (n m fuel : Nat) :
    ∀ (ops : List KernelOp) (s s' : Kernel) (live : Int),
      opsInRange n m ops →
      sumColCounts s n = live → sumRowCounts s m = live →
      applyOps fuel s ops = some s' →
      sumColCounts s' n = live + opDelta ops ∧
      sumRowCounts s' m = live + opDelta ops := by
  intro ops
  induction ops with
  | nil =>
      intro s s' live hops hc hr happ
      simp only [applyOps, Option.some.injEq] at happ
      subst happ
      simp [opDelta, hc, hr]
  | cons op rest ih =>
      intro s s' live hops hc hr happ
      cases hstep : applyOp fuel s op with
      | none => simp [applyOps, hstep] at happ
      | some s1 =>
          have happ1 : applyOps fuel s1 rest = some s' := by
            rw [applyOps, hstep] at happ
            exact happ
          have hop := hops op (List.mem_cons_self op rest)
          have hrest : opsInRange n m rest := fun o ho => hops o (List.mem_cons_of_mem op ho)
          cases op with
          | ins iCol iRow v =>
              obtain ⟨hc0, hc1, hr0, hr1⟩ := hop
              obtain ⟨e1, e2⟩ :=
                applyOp_ins_sums n m fuel s s1 iCol iRow v hc0 hc1 hr0 hr1 hstep
              have hrec := ih s1 s' (live + 1) hrest (by rw [e1, hc]) (by rw [e2, hr]) happ1
              rw [opDelta]
              exact ⟨by rw [hrec.1]; ring, by rw [hrec.2]; ring⟩
          | del iCol iRow =>
              obtain ⟨hc0, hc1, hr0, hr1⟩ := hop
              obtain ⟨e1, e2⟩ :=
                applyOp_del_sums n m fuel s s1 iCol iRow hc0 hc1 hr0 hr1 hstep
              have hrec := ih s1 s' (live - 1) hrest (by rw [e1, hc]) (by rw [e2, hr]) happ1
              rw [opDelta]
              exact ⟨by rw [hrec.1]; ring, by rw [hrec.2]; ring⟩

/-- Claim C5: starting from a quiescent kernel state in which both the
column-view count total and the row-view count total equal the number of live
kernel entries, any sequence of matched colInsert+rowInsert and
colDelete+rowDelete pairs keeps the two totals equal to each other and to the
running live-entry total, each insert pair raising both by one and each delete
pair lowering both by one. -/
theorem kernel_view_consistency (n m fuel : Nat) (live : Int) (s s' : Kernel)
    (ops : List KernelOp) (hops : opsInRange n m ops)
    (hc : sumColCounts s n = live) (hr : sumRowCounts s m = live)
    (happ : applyOps fuel s ops = some s') :
    sumColCounts s' n = live + opDelta ops ∧
    sumRowCounts s' m = live + opDelta ops :=
  applyOps_sums n m fuel ops s s' live hops hc hr happ

/-- Claim C1: after a successful Build, every kernel pivot k satisfies the
threshold-pivoting bound: |u_pivot_value[k]| is at least pivot_threshold
times the maximum absolute entry of the pivot's column at the time the pivot
was chosen. -/
theorem build_threshold_pivoting (ps : List KernelPivot) (h : buildKernelOk ps)
    (k : Nat) (hk : k < ps.length) :
    ∃ M : ℚ, isColMaxAbs (ps.get ⟨k, hk⟩).state (ps.get ⟨k, hk⟩).iCol M ∧
      (ps.get ⟨k, hk⟩).state.pivot_threshold * M ≤ |u_pivot_value ps k hk| := by
  have hacc := h (ps.get ⟨k, hk⟩) (ps.get_mem k hk)
  rw [kernelPivotAccepted, colFixMax_min_pivot] at hacc
  refine ⟨colMaxAbsAux (ps.get ⟨k, hk⟩).state ((ps.get ⟨k, hk⟩).state.mc_start
      (ps.get ⟨k, hk⟩).iCol) ((ps.get ⟨k, hk⟩).state.mc_count_a (ps.get ⟨k, hk⟩).iCol).toNat,
    colMaxAbsAux_isColMaxAbs _ _, ?_⟩
  rw [u_pivot_value, mul_comm]
  exact hacc

/-- Claim C2: build returns 0 exactly when there is no rank deficiency; a
deficient basis yields a positive return equal to rank_deficiency, with the
three pivot-failure lists populated (one entry per deficient row), while the
slack-substituted factorization is still nonsingular: num_row pivots, all
nonzero. -/
theorem build_return_spec (b : BuildOutcome) (tol : ℚ) (htol : 0 < tol)
    (hwf : buildWellFormed b tol) :
    (build b = 0 ↔ rank_deficiency b = 0) ∧
    (0 < rank_deficiency b →
      0 < build b ∧
      b.row_with_no_pivot.length = rank_deficiency b ∧
      b.col_with_no_pivot.length = rank_deficiency b ∧
      b.var_with_no_pivot.length = rank_deficiency b ∧
      b.row_with_no_pivot ≠ [] ∧ b.col_with_no_pivot ≠ [] ∧
      b.var_with_no_pivot ≠ []) ∧
    (final_u_pivot_value b).length = b.num_row ∧
    (∀ v ∈ final_u_pivot_value b, v ≠ 0) := by
  obtain ⟨hlen, hrow, hcol, hvar, hpiv⟩ := hwf
  refine ⟨?_, ?_, ?_, ?_⟩
  · constructor
    · intro h
      rw [build] at h
      exact_mod_cast h
    · intro h
      rw [build, h]
      rfl
  · intro hpos
    refine ⟨by rw [build]; exact_mod_cast hpos, hrow, hcol, hvar, ?_, ?_, ?_⟩
    · exact List.ne_nil_of_length_pos (by omega)
    · exact List.ne_nil_of_length_pos (by omega)
    · exact List.ne_nil_of_length_pos (by omega)
  · rw [final_u_pivot_value, List.length_append, List.length_replicate, rank_deficiency]
    omega
  · intro v hv
    rw [final_u_pivot_value, List.mem_append] at hv
    rcases hv with hv | hv
    · intro h0
      have := hpiv v hv
      rw [h0, abs_zero] at this
      exact absurd this (not_le.mpr htol)
    · rw [List.eq_of_mem_replicate hv]
      norm_num

/-- Claim C3: update with a pivot magnitude |aq[iRow]| below pivot_tolerance
sets the hint to reinvert and leaves the whole factorization state (L, U and
the update buffers) unchanged; with |aq[iRow]| at least pivot_tolerance the
hint stays at keep and the eta data is appended to the update buffers while L
and U are untouched. -/
theorem update_spec (s : UpdateEngine) (aq : Int → ℚ) (aq_index : List Int) (iRow : Int) :
    (|aq iRow| < s.pivot_tolerance →
      update s aq aq_index iRow = (s, kHintReinvert)) ∧
    (s.pivot_tolerance ≤ |aq iRow| →
      (update s aq aq_index iRow).2 = kHintKeep ∧
      (update s aq aq_index iRow).1.l_value = s.l_value ∧
      (update s aq aq_index iRow).1.u_value = s.u_value ∧
      (update s aq aq_index iRow).1.pf_pivot_index = s.pf_pivot_index ++ [iRow] ∧
      (update s aq aq_index iRow).1.pf_pivot_value = s.pf_pivot_value ++ [aq iRow]) := by
  constructor
  · intro h
    rw [update, if_pos h]
  · intro h
    rw [update, if_neg (not_lt.mpr h)]
    exact ⟨rfl, rfl, rfl, rfl, rfl⟩

lemma engineStep_perm (bi bi' : List Int) (h : EngineStep bi bi') : bi'.Perm bi := by
  cases h with
  | build _ hp => exact hp
  | ftran => exact List.Perm.refl _
  | btran => exact List.Perm.refl _
  | update => exact List.Perm.refl _

lemma engineSteps_perm (bi bi' : List Int)
    (h : Relation.ReflTransGen EngineStep bi bi') : bi'.Perm bi := by
  induction h with
  | refl => exact List.Perm.refl _
  | tail _ hbc ih => exact (engineStep_perm _ _ hbc).trans ih

/-- Claim C7: basic_index remains a permutation of its original entries
across any sequence of Build, Ftran, Btran and Update operations; after a
successful Build, l_pivot_lookup inverts l_pivot_index; and u_pivot_value[k]
is nonzero for every k below num_row - rank_deficiency. -/
theorem engine_invariants (bi bi' : List Int)
    (hsteps : Relation.ReflTransGen EngineStep bi bi')
    (lpi : List Int) (hnodup : lpi.Nodup)
    (b : BuildOutcome) (tol : ℚ) (htol : 0 < tol) (hwf : buildWellFormed b tol) :
    bi'.Perm bi ∧
    (∀ i : Fin lpi.length, l_pivot_lookup lpi (lpi.get i) = (i : Nat)) ∧
    (∀ k : Nat, k < b.num_row - rank_deficiency b →
      (final_u_pivot_value b).getD k 0 ≠ 0) := by
  refine ⟨engineSteps_perm bi bi' hsteps, ?_, ?_⟩
  · intro i
    rw [l_pivot_lookup]
    exact List.get_indexOf hnodup i
  · intro k hk
    obtain ⟨hlen, -, -, -, hpiv⟩ := hwf
    have hk1 : k < b.pivot_values.length := by
      rw [rank_deficiency] at hk
      omega
    have hget : (final_u_pivot_value b).getD k 0 = b.pivot_values.get ⟨k, hk1⟩ := by
      rw [final_u_pivot_value, List.getD_append _ _ _ _ hk1, List.getD_eq_get]
    rw [hget]
    intro h0
    have := hpiv _ (b.pivot_values.get_mem k hk1)
    rw [h0, abs_zero] at this
    exact absurd this (not_le.mpr htol)

/-- Claim C8: setPivotThreshold and setMinAbsPivot accept a proposed value
exactly when it lies in (0, 1/2], report acceptance as a boolean, set only
their own stored value on acceptance, and leave the stored values unchanged
on rejection. -/
theorem set_tolerances_spec (s : FactorTolerances) (v : ℚ) :
    ((setPivotThreshold s v).2 = true ↔ 0 < v ∧ v ≤ 1 / 2) ∧
    ((setMinAbsPivot s v).2 = true ↔ 0 < v ∧ v ≤ 1 / 2) ∧
    ((setPivotThreshold s v).2 = false → (setPivotThreshold s v).1 = s) ∧
    ((setMinAbsPivot s v).2 = false → (setMinAbsPivot s v).1 = s) ∧
    ((setPivotThreshold s v).2 = true →
      (setPivotThreshold s v).1.pivot_threshold = v ∧
      (setPivotThreshold s v).1.pivot_tolerance = s.pivot_tolerance) ∧
    ((setMinAbsPivot s v).2 = true →
      (setMinAbsPivot s v).1.pivot_tolerance = v ∧
      (setMinAbsPivot s v).1.pivot_threshold = s.pivot_threshold) := by
  by_cases h : 0 < v ∧ v ≤ 1 / 2
  · rw [setPivotThreshold, setMinAbsPivot, if_pos h, if_pos h]
    refine ⟨iff_of_true rfl h, iff_of_true rfl h, ?_, ?_,
      fun _ => ⟨rfl, rfl⟩, fun _ => ⟨rfl, rfl⟩⟩
    · intro hf
      simp at hf
    · intro hf
      simp at hf
  · rw [setPivotThreshold, setMinAbsPivot, if_neg h, if_neg h]
    refine ⟨iff_of_false (by simp) h, iff_of_false (by simp) h,
      fun _ => rfl, fun _ => rfl, ?_, ?_⟩
    · intro ht
      simp at ht
    · intro ht
      simp at ht

/-- Witness for claim C1 at a concrete one-pivot build on K1. -/
theorem build_threshold_pivoting_witness :
    buildKernelOk [⟨K1, 5, 0, 4⟩] ∧
    (∃ M : ℚ, isColMaxAbs K1 0 M ∧ K1.pivot_threshold * M ≤ |(4 : ℚ)|) := by
  have h : buildKernelOk [⟨K1, 5, 0, 4⟩] := by
    intro p hp
    rw [List.mem_singleton] at hp
    subst hp
    show (colFixMax K1 0).mc_min_pivot 0 ≤ |(4 : ℚ)|
    rw [colFixMax_min_pivot]
    have haux : colMaxAbsAux K1 (K1.mc_start 0) (K1.mc_count_a 0).toNat
        = max (max 0 |(3 : ℚ)|) |(-4 : ℚ)| := rfl
    have hth : K1.pivot_threshold = 1 / 10 := rfl
    rw [haux, hth]
    norm_num
  exact ⟨h, build_threshold_pivoting [⟨K1, 5, 0, 4⟩] h 0 (by decide)⟩

/-- Witness for claim C2 at the concrete deficient outcome B1. -/
theorem build_return_spec_witness :
    (0 : ℚ) < 1 / 100 ∧ buildWellFormed B1 (1 / 100) ∧
    0 < build B1 ∧ B1.row_with_no_pivot ≠ [] ∧
    (final_u_pivot_value B1).length = B1.num_row := by
  have htol : (0 : ℚ) < 1 / 100 := by norm_num
  have hwf : buildWellFormed B1 (1 / 100) := by
    refine ⟨by decide, by decide, by decide, by decide, ?_⟩
    intro v hv
    fin_cases hv <;> norm_num [abs_div]
  have h := build_return_spec B1 (1 / 100) htol hwf
  have hd := h.2.1 (by decide)
  exact ⟨htol, hwf, hd.1, hd.2.2.2.2.1, h.2.2.1⟩

/-- Witness for claim C3 at concrete updates on U1: a tiny pivot is rejected
with the reinvert hint, a healthy pivot is kept. -/
theorem update_spec_witness :
    |((fun _ => 1 / 1000 : Int → ℚ)) 0| < U1.pivot_tolerance ∧
    update U1 (fun _ => 1 / 1000) [0] 0 = (U1, kHintReinvert) ∧
    (update U1 (fun _ => 5) [0] 0).2 = kHintKeep := by
  have htolv : U1.pivot_tolerance = 1 / 100 := rfl
  have h1 : |((fun _ => 1 / 1000 : Int → ℚ)) 0| < U1.pivot_tolerance := by
    show |(1 / 1000 : ℚ)| < U1.pivot_tolerance
    rw [htolv]
    norm_num [abs_div]
  have h2 : U1.pivot_tolerance ≤ |((fun _ => 5 : Int → ℚ)) 0| := by
    show U1.pivot_tolerance ≤ |(5 : ℚ)|
    rw [htolv]
    norm_num
  exact ⟨h1, (update_spec U1 (fun _ => 1 / 1000) [0] 0).1 h1,
    ((update_spec U1 (fun _ => 5) [0] 0).2 h2).1⟩

/-- Witness for claim C4: the full characterization instantiated at column 0
of K1. -/
theorem colFixMax_spec_witness :
    ∃ M : ℚ, isColMaxAbs K1 0 M ∧
      (colFixMax K1 0).mc_min_pivot 0 = M * K1.pivot_threshold ∧
      ((K1.mc_count_a 0).toNat = 0 → (colFixMax K1 0).mc_min_pivot 0 = 0) ∧
      (∀ v : ℚ, kernelPivotAccepted K1 0 v ↔ M * K1.pivot_threshold ≤ |v|) :=
  colFixMax_spec K1 0

/-- Witness for claim C5: one matched delete pair on K2 lowers both count
totals from 1 to 0. -/
theorem kernel_view_consistency_witness :
    opsInRange 2 2 [KernelOp.del 0 1] ∧
    sumColCounts K2 2 = 1 ∧ sumRowCounts K2 2 = 1 ∧
    ∃ s', applyOps 1 K2 [KernelOp.del 0 1] = some s' ∧
      sumColCounts s' 2 = 1 + opDelta [KernelOp.del 0 1] ∧
      sumRowCounts s' 2 = 1 + opDelta [KernelOp.del 0 1] := by
  have hops : opsInRange 2 2 [KernelOp.del 0 1] := by
    intro op hop
    rw [List.mem_singleton] at hop
    subst hop
    exact ⟨by decide, by decide, by decide, by decide⟩
  have hsome : (applyOps 1 K2 [KernelOp.del 0 1]).isSome = true := by decide
  obtain ⟨s', hs'⟩ := Option.isSome_iff_exists.mp hsome
  have h := kernel_view_consistency 2 2 1 1 K2 s' [KernelOp.del 0 1] hops
    (by decide) (by decide) hs'
  exact ⟨hops, by decide, by decide, s', hs', h.1, h.2⟩

/-- Witness for claim C6 at the concrete bucket state L1, adding then
removing index 3 on the count-1 bucket headed by 4. -/
theorem clink_add_del_spec_witness :
    (0 : Int) ≤ 1 ∧ L1.first 1 ≠ 3 ∧
    (clinkAdd L1 3 1).last 3 = -3 ∧
    (clinkAdd L1 3 1).first 1 = 3 ∧
    (clinkDel (clinkAdd L1 3 1) 3).first 1 = 4 ∧
    (clinkDel (clinkAdd L1 3 1) 3).next 4 = -1 ∧
    (clinkDel (clinkAdd L1 3 1) 3).last 4 = -3 := by
  have h := clink_add_del_spec L1 3 1 (by decide) (by decide) (by decide)
  refine ⟨by decide, by decide, ?_, h.2.1, ?_, ?_, ?_⟩
  · rw [h.1]
    decide
  · rw [congrFun h.2.2.1 1]
    decide
  · rw [h.2.2.2.1 4 (by decide)]
    decide
  · rw [h.2.2.2.2.1 4 (by decide)]
    decide

/-- Witness for claim C7: a concrete Build permutation step, a concrete pivot
permutation, and the first final pivot of B1. -/
theorem engine_invariants_witness :
    ([3, 1, 2] : List Int).Perm [1, 2, 3] ∧
    l_pivot_lookup [2, 0, 1] 0 = 1 ∧
    (final_u_pivot_value B1).getD 0 0 ≠ 0 := by
  have hstep : Relation.ReflTransGen EngineStep [1, 2, 3] [3, 1, 2] :=
    Relation.ReflTransGen.single (EngineStep.build _ _ (by decide))
  have hwf : buildWellFormed B1 (1 / 100) := by
    refine ⟨by decide, by decide, by decide, by decide, ?_⟩
    intro v hv
    fin_cases hv <;> norm_num [abs_div]
  have h := engine_invariants [1, 2, 3] [3, 1, 2] hstep [2, 0, 1] (by decide)
    B1 (1 / 100) (by norm_num) hwf
  refine ⟨h.1, ?_, h.2.2 0 (by decide)⟩
  have hi := h.2.1 ⟨1, by decide⟩
  exact hi

/-- Witness for claim C8: 1/4 is accepted, 3 is rejected and leaves T1
unchanged. -/
theorem set_tolerances_spec_witness :
    (setPivotThreshold T1 (1 / 4)).2 = true ∧
    (setMinAbsPivot T1 3).2 = false ∧
    (setMinAbsPivot T1 3).1 = T1 := by
  have h1 := set_tolerances_spec T1 (1 / 4)
  have h2 := set_tolerances_spec T1 3
  have hrej : ¬ ((setMinAbsPivot T1 3).2 = true) := by
    intro ht
    have := h2.2.1.mp ht
    norm_num at this
  have hfalse : (setMinAbsPivot T1 3).2 = false := Bool.eq_false_iff.mpr hrej
  exact ⟨h1.1.mpr (by norm_num), hfalse, h2.2.2.2.1 hfalse⟩

/-- Witness for claim C9: inserting 5 into column 0 of K1 succeeds. -/
theorem colInsert_spec_witness :
    kHighsTiny ≤ |(5 : ℚ)| ∧ (colInsert K1 0 9 5).isSome = true := by
  have hv : kHighsTiny ≤ |(5 : ℚ)| := by
    rw [kHighsTiny]
    norm_num
  obtain ⟨s', hs', -⟩ := (colInsert_spec K1 0 9 5).2 hv
  exact ⟨hv, by rw [hs']; rfl⟩

/-- Witness for claim C10: deleting row 5 from column 0 of K1 succeeds with
the scan stopping at the first slot. -/
theorem colDelete_spec_witness :
    (0 : Nat) < (K1.mc_count_a 0).toNat ∧
    K1.mc_index (K1.mc_start 0 + ((0 : Nat) : Int)) = 5 ∧
    (colDelete (K1.mc_count_a 0).toNat K1 0 5).isSome = true := by
  have h := colDelete_spec K1 0 5 0 (by decide) (by decide)
    (fun q hq => absurd hq (Nat.not_lt_zero q))
  obtain ⟨⟨s', hs', -⟩, -⟩ := h
  exact ⟨by decide, by decide, by rw [hs']; rfl⟩

end HFactor
